import Mathlib

/-!
Shallow embedding of the Truth-py repository (src/truth.py and src/true.py)
and verification of its specification claims.

Modelling conventions:
* Python's arbitrary-precision `int` is `Int` (or `Nat` where the value is
  known to be nonnegative).
* Python strings are `List Char` (ASCII; the inputs handled here are ASCII).
* Fallible Python computations (statements that can raise) are embedded as
  `Except String _` or `Option _`; the error string records the Python
  exception class.
* `math.sqrt` followed by `int(...)` is modelled as the exact integer square
  root `Nat.sqrt` (the float computation is exact on the magnitudes the tool
  is meant for; float range/precision artefacts above 2^52 are outside the
  model).  `math.isqrt` is exact integer square root in Python as well.
* Floating-point-valued result fields (`divided_by_2`, logarithms,
  trigonometry, `cube_root`) and the cryptographic digests are pure total
  library computations with no claim attached to them; they are omitted from
  the embedded result record.  The one float computation that can raise on
  the claims' domain, `math.sqrt` of a negative number, is modelled
  explicitly (`pySqrt`).
-/

/-- Whether an embedded computation finished without raising. -/
def isOkE {ε α : Type} : Except ε α → Bool
  | Except.ok _ => true
  | Except.error _ => false

instance {ε α : Type} [DecidableEq ε] [DecidableEq α] :
    DecidableEq (Except ε α) := fun x y =>
  match x, y with
  | Except.ok a, Except.ok b =>
    if h : a = b then isTrue (by rw [h]) else isFalse (by simp [h])
  | Except.error a, Except.error b =>
    if h : a = b then isTrue (by rw [h]) else isFalse (by simp [h])
  | Except.ok _, Except.error _ => isFalse (by simp)
  | Except.error _, Except.ok _ => isFalse (by simp)

namespace TruthPy

/-! ## Definitions: shallow embedding of src/truth.py

### Digit-string machinery

Models Python's rendering of a nonnegative integer in a radix (`hex`,
`bin`, `oct`, `str`) and Python's `int(s, base)` parsing of plain
unsigned digit strings.  `hex(n)` is rendered lowercase by Python and
upcased by `truth.py` (`.upper()`), so the hexadecimal digit table here
is uppercase.  `int(s, base)` additionally strips
whitespace/sign/prefix and accepts both letter cases, none of which
occur in the strings built here except that a parse of a letter outside
the radix fails in both. -/

def digitCharTable : List Char := "0123456789ABCDEF".toList

def digitChar (d : Nat) : Char := digitCharTable.getD d '*'

/-- Little-endian digits of `n` in base `b`, fuel-indexed so that the
definition is structural and evaluates inside the kernel; with fuel at
least `n` it agrees with `Nat.digits` (see `digitsRev_eq_digits`). -/
def digitsRev (b : Nat) : Nat → Nat → List Nat
  | 0, _ => []
  | _ + 1, 0 => []
  | f + 1, n + 1 => ((n + 1) % b) :: digitsRev b f ((n + 1) / b)

/-- Digit string of `n` in base `b`, most significant first ("0" for 0),
as produced by Python's `hex`/`oct`/`bin`/`str` (hex upcased). -/
def natToChars (b n : Nat) : List Char :=
  if n = 0 then ['0'] else ((digitsRev b n n).map digitChar).reverse

/-- Fuel-indexed Newton iteration for the integer square root, mirroring
`Nat.sqrt.iter` but structural so that it evaluates inside the kernel. -/
def isqrtIter (n : Nat) : Nat → Nat → Nat
  | 0, g => g
  | f + 1, g =>
    let next := (g + n / g) / 2
    if next < g then isqrtIter n f next else g

/-- Kernel-computable integer square root, provably equal to `Nat.sqrt`
(`isqrtN_eq`); used to model Python's `int(math.sqrt(_))` and
`math.isqrt`. -/
def isqrtN (n : Nat) : Nat :=
  if n ≤ 1 then n else isqrtIter n n (n / 2)

/-- Value of one digit character, case-insensitive, as in Python `int`. -/
def charVal (c : Char) : Option Nat :=
  if '0' ≤ c ∧ c ≤ '9' then some (c.toNat - 48)
  else if 'A' ≤ c ∧ c ≤ 'F' then some (c.toNat - 55)
  else if 'a' ≤ c ∧ c ≤ 'f' then some (c.toNat - 87)
  else none

def charValB (b : Nat) (c : Char) : Option Nat :=
  match charVal c with
  | some d => if d < b then some d else none
  | none => none

def charVals (b : Nat) : List Char → Option (List Nat)
  | [] => some []
  | c :: t =>
    match charValB b c, charVals b t with
    | some d, some ds => some (d :: ds)
    | _, _ => none

/-- Python `int(s, b)` on a plain digit string: fails on the empty string
or on any character that is not a digit of the radix. -/
def parseChars (b : Nat) (l : List Char) : Option Nat :=
  if l = [] then none
  else (charVals b l).map (fun ds => Nat.ofDigits b ds.reverse)

def parseIntB (b : Nat) (l : List Char) : Option Int :=
  (parseChars b l).map Int.ofNat

/-! ## Base-conversion fields (truth.py lines 22-24)

`hex(number)[2:].upper()`, `bin(number)[2:]`, `oct(number)[2:]`.
Python renders a negative integer as `-0x…`/`-0b…`/`-0o…`, so slicing off
the first two characters of `hex(-5)` leaves `x5` (upcased to `X5`), and
similarly `b…`/`o…` for binary and octal: for negative input the sign is
lost and the leading radix letter survives into the field. -/

def hexField (n : Int) : List Char :=
  if 0 ≤ n then natToChars 16 n.toNat else 'X' :: natToChars 16 (-n).toNat

def binField (n : Int) : List Char :=
  if 0 ≤ n then natToChars 2 n.toNat else 'b' :: natToChars 2 (-n).toNat

def octField (n : Int) : List Char :=
  if 0 ≤ n then natToChars 8 n.toNat else 'o' :: natToChars 8 (-n).toNat

/-- Python `str(number)`: decimal digits, with a leading `-` sign when
negative. -/
def strOfInt (n : Int) : List Char :=
  if n < 0 then '-' :: natToChars 10 (-n).toNat else natToChars 10 n.toNat

/-! ## Number theory (truth.py lines 122-162) -/

/-- The trial-division loop of `factorize` (truth.py lines 127-135).  The
trial divisor is written `k + 2` (Python's `d` starting at 2), so the
function is total without a precondition.  `m` is the remaining cofactor. -/
def factorizeAux (k m : Nat) : List Nat :=
  if (k + 2) * (k + 2) ≤ m then
    if m % (k + 2) = 0 then (k + 2) :: factorizeAux k (m / (k + 2))
    else factorizeAux (k + 1) m
  else if 1 < m then [m] else []
termination_by (m, m + 1 - k)
decreasing_by
  · rename_i h1 _
    have h4 : 0 < m := lt_of_lt_of_le (Nat.mul_pos (by omega) (by omega)) h1
    exact Prod.Lex.left _ _ (Nat.div_lt_self h4 (by omega))
  · rename_i h1 _
    have h3 : k + 2 ≤ m :=
      le_trans (Nat.le_mul_of_pos_left _ (by omega)) h1
    exact Prod.Lex.right _ (by omega)

/-- `factorize` (truth.py lines 122-136): `[n]` for `n < 2`, otherwise
repeated trial division starting at 2. -/
def factorize (n : Int) : List Int :=
  if n < 2 then [n] else (factorizeAux 0 n.toNat).map Int.ofNat

/-- `is_prime` (truth.py lines 138-145): false below 2, otherwise trial
division over `range(2, int(math.sqrt(n)) + 1)` (the float square root
modelled as the exact integer square root `isqrtN = Nat.sqrt`). -/
def isPrime (n : Int) : Bool :=
  if n < 2 then false
  else (List.range' 2 (isqrtN n.toNat - 1)).all (fun i => n.toNat % i != 0)

/-- The scanning loop of `find_previous_primes` (truth.py lines 149-155):
candidate descending from `c`, still needing `k` primes.  The loop body
only runs while the candidate exceeds 1, so the candidate is carried as a
natural number (`find_previous_primes` clamps its possibly negative
initial candidate with `toNat`, which only collapses values for which the
loop body never runs). -/
def fppGo : Nat → Nat → List Int
  | 0, _ => []
  | 1, _ => []
  | c + 2, k =>
    if k = 0 then []
    else if isPrime ((c + 2 : Nat) : Int) then
      ((c + 2 : Nat) : Int) :: fppGo (c + 1) (k - 1)
    else fppGo (c + 1) k
termination_by structural c _ => c

/-- `find_previous_primes` (truth.py lines 147-155). -/
def findPreviousPrimes (n : Int) (count : Nat) : List Int :=
  fppGo (n - 1).toNat count

/-- Python `math.isqrt`: exact integer square root, `ValueError` on a
negative argument. -/
def pyIsqrt (m : Int) : Option Nat :=
  if m < 0 then none else some (isqrtN m.toNat)

/-- `is_fibonacci` (truth.py lines 157-162).  The Python `or` is
short-circuiting: `isqrt(x - 4)` is evaluated only when the first perfect
square test fails (this is what protects `n = 0` from
`isqrt(-4)`). `none` models an uncaught `ValueError`. -/
def isFibonacci (n : Int) : Option Bool :=
  if n < 0 then some false
  else
    let x : Int := 5 * n * n
    match pyIsqrt (x + 4) with
    | none => none
    | some a =>
      if (a : Int) ^ 2 = x + 4 then some true
      else
        match pyIsqrt (x - 4) with
        | none => none
        | some b => some (decide ((b : Int) ^ 2 = x - 4))

/-- The descending candidate sequence `[c, c-1, …, 2]` scanned by the
`find_previous_primes` loop. -/
def descList : Nat → List Int
  | 0 => []
  | 1 => []
  | c + 2 => ((c + 2 : Nat) : Int) :: descList (c + 1)
termination_by structural c => c

/-- Number of primes strictly below `n` (counted with the program's own
primality test, which agrees with `Nat.Prime` by `isPrime_iff`). -/
def primesBelow (n : Int) : Nat :=
  ((List.range n.toNat).filter (fun k : Nat => isPrime (k : Int))).length

/-- Step-indexed rendering of the `factorize` trial-division loop. -/
def factorizeLoop : Nat → Nat → Nat → Option (List Nat)
  | 0, _, _ => none
  | fuel + 1, k, m =>
    if (k + 2) * (k + 2) ≤ m then
      if m % (k + 2) = 0 then
        (factorizeLoop fuel k (m / (k + 2))).map (fun l => (k + 2) :: l)
      else factorizeLoop fuel (k + 1) m
    else some (if 1 < m then [m] else [])

/-- `factorize` with the loop step-indexed. -/
def factorizeFueled (n : Int) (fuel : Nat) : Option (List Int) :=
  if n < 2 then some [n]
  else (factorizeLoop fuel 0 n.toNat).map (List.map Int.ofNat)

/-- Step-indexed rendering of the `find_previous_primes` scanning loop. -/
def fppLoop : Nat → Nat → Nat → Option (List Int)
  | 0, _, _ => none
  | fuel + 1, c, k =>
    if 1 < c then
      if k = 0 then some []
      else if isPrime (c : Int) then
        (fppLoop fuel (c - 1) (k - 1)).map (fun l => (c : Int) :: l)
      else fppLoop fuel (c - 1) k
    else some []

/-- `find_previous_primes` with the loop step-indexed. -/
def fppFueled (n : Int) (count fuel : Nat) : Option (List Int) :=
  fppLoop fuel (n - 1).toNat count

/-- Step-indexed rendering of the `is_prime` trial-division loop. -/
def isPrimeLoop (m : Nat) : Nat → Nat → Option Bool
  | 0, _ => none
  | fuel + 1, i =>
    if i ≤ isqrtN m then
      if m % i = 0 then some false
      else isPrimeLoop m fuel (i + 1)
    else some true

/-- `is_prime` with the loop step-indexed. -/
def isPrimeFueled (n : Int) (fuel : Nat) : Option Bool :=
  if n < 2 then some false else isPrimeLoop n.toNat fuel 2

/-! ## Magnitude reinterpretations (truth.py lines 164-194) -/

/-- `number_to_ipv4` (truth.py lines 179-183): dotted quad of the four
big-endian bytes for `0 ≤ n ≤ 0xFFFFFFFF`, else the invalid marker. -/
def numberToIpv4 (n : Int) : List Char :=
  if 0 ≤ n ∧ n ≤ 0xFFFFFFFF then
    natToChars 10 ((n.toNat >>> 24) &&& 255) ++ '.' ::
    natToChars 10 ((n.toNat >>> 16) &&& 255) ++ '.' ::
    natToChars 10 ((n.toNat >>> 8) &&& 255) ++ '.' ::
    natToChars 10 (n.toNat &&& 255)
  else "Invalid IPv4 address".toList

def weekdayNames : List (List Char) :=
  ["Sunday".toList, "Monday".toList, "Tuesday".toList, "Wednesday".toList,
   "Thursday".toList, "Friday".toList, "Saturday".toList]

def monthNames : List (List Char) :=
  ["January".toList, "February".toList, "March".toList, "April".toList,
   "May".toList, "June".toList, "July".toList, "August".toList,
   "September".toList, "October".toList, "November".toList,
   "December".toList]

/-- Two-digit zero-padded decimal rendering (strftime `%d`/`%H`/`%M`/`%S`). -/
def pad2 (k : Nat) : List Char :=
  if k < 10 then '0' :: natToChars 10 k else natToChars 10 k

/-- Modelled from the spec: the host `datetime` library's conversion of
epoch days to a Gregorian civil date (`datetime.fromtimestamp`), which is
not part of the repository's sources.  Returns `(year, month, day)`;
standard era-based civil-from-days computation. -/
def civilFromDays (days : Nat) : Nat × Nat × Nat :=
  let z := days + 719468
  let era := z / 146097
  let doe := z % 146097
  let yoe := (doe - doe / 1460 + doe / 36524 - doe / 146096) / 365
  let y := yoe + era * 400
  let doy := doe - (365 * yoe + yoe / 4 - yoe / 100)
  let mp := (5 * doy + 2) / 153
  let d := doy - (153 * mp + 2) / 5 + 1
  let m := if mp < 10 then mp + 3 else mp - 9
  (if m ≤ 2 then y + 1 else y, m, d)

/-- Modelled from the spec: rendering of an in-range epoch timestamp with
`strftime('%A, %d %B %Y at %H:%M:%S UTC')`, with the epoch-seconds
interpretation taken as UTC as the spec states. -/
def formatTimestamp (t : Nat) : List Char :=
  let days := t / 86400
  let secs := t % 86400
  let c := civilFromDays days
  weekdayNames.getD ((days + 4) % 7) [] ++ ", ".toList ++
  pad2 c.2.2 ++ ' ' :: monthNames.getD (c.2.1 - 1) [] ++ ' ' ::
  natToChars 10 c.1 ++ " at ".toList ++
  pad2 (secs / 3600) ++ ':' :: pad2 (secs % 3600 / 60) ++ ':' ::
  pad2 (secs % 60) ++ " UTC".toList

/-- `unix_to_datetime` (truth.py lines 170-177): formatted calendar string
for `0 ≤ timestamp ≤ 2000000000`, else (or on any conversion failure) the
out-of-range marker. -/
def unixToDatetime (t : Int) : List Char :=
  if 0 ≤ t ∧ t ≤ 2000000000 then formatTimestamp t.toNat
  else "Invalid or out-of-range timestamp".toList

/-- Python `str.zfill(w)`: left-pad with zeros to width `w` (the strings it
is applied to here carry no sign). -/
def zfill (w : Nat) (l : List Char) : List Char :=
  if l.length < w then List.replicate (w - l.length) '0' ++ l else l

/-- `hex_to_rgb` (truth.py lines 185-194): zero-pad the hex text to six
digits, parse the three leading 2-digit byte pairs; any `ValueError`
yields `(0, 0, 0)`. -/
def hexToRgb (l : List Char) : Nat × Nat × Nat :=
  let s := zfill 6 l
  match parseChars 16 (s.take 2), parseChars 16 ((s.drop 2).take 2),
      parseChars 16 ((s.drop 4).take 2) with
  | some r, some g, some b => (r, g, b)
  | _, _, _ => (0, 0, 0)

/-! ## English words (truth.py lines 82-120) -/

def unitsWords : List (List Char) :=
  [[], "one".toList, "two".toList, "three".toList, "four".toList,
   "five".toList, "six".toList, "seven".toList, "eight".toList,
   "nine".toList]

def teensWords : List (List Char) :=
  ["ten".toList, "eleven".toList, "twelve".toList, "thirteen".toList,
   "fourteen".toList, "fifteen".toList, "sixteen".toList,
   "seventeen".toList, "eighteen".toList, "nineteen".toList]

def tensWords : List (List Char) :=
  [[], [], "twenty".toList, "thirty".toList, "forty".toList,
   "fifty".toList, "sixty".toList, "seventy".toList, "eighty".toList,
   "ninety".toList]

def thousandsWords : List (List Char) :=
  [[], "thousand".toList, "million".toList, "billion".toList]

/-- `convert_hundreds` (truth.py lines 92-102).  All list indices are in
range for every argument this is applied to (`num ≤ 999` from the chunking,
`num % 10 ≤ 9`, `num // 100 ≤ 9`, …), so Python indexing cannot raise here
and `getD` is a faithful model. -/
def convertHundreds (num : Nat) : List Char :=
  if num = 0 then []
  else if num < 10 then unitsWords.getD num []
  else if num < 20 then teensWords.getD (num - 10) []
  else if num < 100 then
    tensWords.getD (num / 10) [] ++
      (if num % 10 ≠ 0 then ' ' :: unitsWords.getD (num % 10) [] else [])
  else
    unitsWords.getD (num / 100) [] ++ " hundred".toList ++
      (if num % 100 ≠ 0 then ' ' :: convertHundreds (num % 100) else [])
decreasing_by exact Nat.lt_of_lt_of_le (Nat.mod_lt _ (by omega)) (by omega)

/-- `thousands[chunk_count]`: Python list indexing, `IndexError` when the
index is past `"billion"`. -/
def getThousands (i : Nat) : Except String (List Char) :=
  match thousandsWords.get? i with
  | some s => Except.ok s
  | none => Except.error "IndexError: list index out of range"

/-- The rendering of one chunk of the loop body: nothing for a zero
chunk, the chunk's words for the lowest chunk, and the chunk's words
followed by the scale word otherwise — where the scale-word lookup can
raise. -/
def chunkPart (chunk idx : Nat) : Except String (List (List Char)) :=
  if chunk ≠ 0 then
    (if 0 < idx then
      (getThousands idx).map (fun t => [convertHundreds chunk ++ ' ' :: t])
    else Except.ok [convertHundreds chunk])
  else Except.ok ([] : List (List Char))

/-- The chunking loop of `number_to_english` (truth.py lines 110-118),
returning the rendered parts most-significant first (the Python code
appends least-significant first and joins the reversed list).  The scale
word for a nonzero chunk is looked up before the loop continues, exactly
as in the source, and an out-of-range lookup aborts with the exception. -/
def chunksLoop (n idx : Nat) : Except String (List (List Char)) :=
  if n = 0 then Except.ok []
  else
    match chunkPart (n % 1000) idx with
    | Except.error e => Except.error e
    | Except.ok here =>
      match chunksLoop (n / 1000) (idx + 1) with
      | Except.error e => Except.error e
      | Except.ok rest => Except.ok (rest ++ here)
decreasing_by exact Nat.div_lt_self (by omega) (by omega)

/-- `" ".join`: parts joined by single spaces. -/
def joinSpace : List (List Char) → List Char
  | [] => []
  | [x] => x
  | x :: y :: t => x ++ ' ' :: joinSpace (y :: t)

/-- `number_to_english` (truth.py lines 82-120).  The single recursive call
for a negative argument is unfolded (the recursion depth is one, and the
argument of the recursive call is positive, hence lands in the loop
branch); `n = 0` is special-cased to "zero" first, as in the source. -/
def numberToEnglish (n : Int) : Except String (List Char) :=
  if n = 0 then Except.ok "zero".toList
  else if n < 0 then
    (chunksLoop (-n).toNat 0).map
      (fun parts => "negative ".toList ++ joinSpace parts)
  else (chunksLoop n.toNat 0).map joinSpace

/-! ## Remaining fallible pieces of the analysis (truth.py lines 35, 46) -/

/-- Python `int(d)` on a single character of `str(number)`: the digit's
value, or `ValueError` on the sign character `-`. -/
def pyIntOfChar (c : Char) : Except String Nat :=
  match charValB 10 c with
  | some v => Except.ok v
  | none => Except.error "ValueError: invalid literal for int() with base 10"

def sumDigits : List Char → Except String Nat
  | [] => Except.ok 0
  | c :: t =>
    match pyIntOfChar c, sumDigits t with
    | Except.ok v, Except.ok s => Except.ok (v + s)
    | Except.error e, _ => Except.error e
    | _, Except.error e => Except.error e

/-- `sum(int(d) for d in str(number))` (truth.py line 35): raises on the
`-` sign of a negative number. -/
def digitSum (n : Int) : Except String Nat :=
  sumDigits (strOfInt n)

/-- `math.sqrt` (truth.py line 46): `ValueError: math domain error` on a
negative argument; for a nonnegative argument the value is modelled by its
integer floor (the claims only concern whether this raises). -/
def pySqrt (n : Int) : Except String Nat :=
  if n < 0 then Except.error "ValueError: math domain error"
  else Except.ok (isqrtN n.toNat)

/-! ## The analysis record (truth.py lines 14-80)

Float-valued fields and digests are omitted (see the module docstring);
every remaining `results[...]` key is a field.  The field values are the
per-field functions of this file, in the source's field set. -/

structure AnalysisResult where
  decimal : Int
  hexadecimal : List Char
  binary : List Char
  octal : List Char
  english_words : List Char
  parity : List Char
  factors : List Int
  prime_status : List Char
  divisible_by_8 : List Int
  multiplied_by_2 : Int
  previous_primes : List Int
  digit_sum : Nat
  digit_count : Nat
  fibonacci : Bool
  next_number : Int
  previous_number : Int
  square : Int
  cube : Int
  square_root : Nat
  c_hex : List Char
  delphi_hex : List Char
  unix_time : List Char
  ipv4 : List Char
  color_hex : List Char
  rgb : Nat × Nat × Nat
  deriving DecidableEq

/-- The pure part of the record, assembled from the already-computed
values of the fallible statements. -/
def buildResult (n : Int) (ew : List Char) (ds : Nat) (fb : Bool)
    (sq : Nat) : AnalysisResult :=
  { decimal := n
    hexadecimal := hexField n
    binary := binField n
    octal := octField n
    english_words := ew
    parity := if n % 2 ≠ 0 then "Odd".toList else "Even".toList
    factors := factorize n
    prime_status := if isPrime n then "Prime".toList else "Composite".toList
    divisible_by_8 := (List.range' 2 8).map (fun i => n * (i : Int))
    multiplied_by_2 := n * 2
    previous_primes := findPreviousPrimes n 8
    digit_sum := ds
    digit_count := (strOfInt n).length
    fibonacci := fb
    next_number := n + 1
    previous_number := n - 1
    square := n ^ 2
    cube := n ^ 3
    square_root := sq
    c_hex := '0' :: 'x' :: hexField n
    delphi_hex := '$' :: hexField n
    unix_time := unixToDatetime n
    ipv4 := numberToIpv4 n
    color_hex := '#' :: zfill 6 (hexField n)
    rgb := hexToRgb (hexField n) }

/-- `analyze_number` (truth.py lines 14-80).  The fallible statements are
evaluated in source line order (English words, line 27; digit sum,
line 35; Fibonacci test, line 39; square root, line 46); the first
uncaught exception aborts the analysis, as in Python. -/
def analyzeNumber (n : Int) : Except String AnalysisResult :=
  match numberToEnglish n with
  | Except.error e => Except.error e
  | Except.ok ew =>
    match digitSum n with
    | Except.error e => Except.error e
    | Except.ok ds =>
      match isFibonacci n with
      | none => Except.error "ValueError: isqrt argument out of domain"
      | some fb =>
        match pySqrt n with
        | Except.error e => Except.error e
        | Except.ok sq => Except.ok (buildResult n ew ds fb sq)

end TruthPy

namespace TruePy

/-! ## Definitions: shallow embedding of src/true.py

The letter-index encoder/decoder (A=1 … Z=26).  Python's `str.upper`,
`str.strip`, `str.isalpha`, `str.isdigit` are modelled on the ASCII
range, which covers every string these claims range over (`isdigit`'s
and `isalpha`'s non-ASCII Unicode behaviour is outside the model). -/

def pyUpper (c : Char) : Char :=
  if 'a' ≤ c ∧ c ≤ 'z' then Char.ofNat (c.toNat - 32) else c

def isSpaceChar (c : Char) : Bool :=
  c = ' ' ∨ c = '\t' ∨ c = '\n' ∨ c = '\x0b' ∨ c = '\x0c' ∨ c = '\r'

def pyStrip (l : List Char) : List Char :=
  ((l.dropWhile isSpaceChar).reverse.dropWhile isSpaceChar).reverse

def isAlphaChar (c : Char) : Bool :=
  ('A' ≤ c ∧ c ≤ 'Z') ∨ ('a' ≤ c ∧ c ≤ 'z')

/-- `'.'.join`. -/
def joinDot : List (List Char) → List Char
  | [] => []
  | [x] => x
  | x :: y :: t => x ++ '.' :: joinDot (y :: t)

/-- `encoder_mot` (true.py lines 1-13): upcase and strip, keep the
letters, map each to its 1-based alphabet index rendered in decimal, and
join with dots. -/
def encoderMot (mot : List Char) : List Char :=
  joinDot (((pyStrip (mot.map pyUpper)).filter isAlphaChar).map
    (fun c => TruthPy.natToChars 10 (c.toNat - 'A'.toNat + 1)))

/-- `sequence.split('.')` (Python `str.split` with an explicit
separator: `"".split('.') = ['']`, and empty pieces are kept). -/
def splitDot : List Char → List (List Char)
  | [] => [[]]
  | c :: t =>
    if c = '.' then [] :: splitDot t
    else
      match splitDot t with
      | [] => [[c]]
      | h :: r => (c :: h) :: r

/-- One iteration of the decoding loop (true.py lines 22-27): a piece
contributes a letter exactly when it is a nonempty all-digit string whose
value lies in `[1, 26]`; everything else is silently dropped.
`TruthPy.parseChars 10` succeeds exactly on the nonempty all-digit
strings, so it models the `isdigit` guard plus `int`. -/
def decodeItem (l : List Char) : List Char :=
  match TruthPy.parseChars 10 l with
  | some k =>
    if 1 ≤ k ∧ k ≤ 26 then [Char.ofNat (k + 'A'.toNat - 1)] else []
  | none => []

/-- `decoder_sequence` (true.py lines 15-29). -/
def decoderSequence (sequence : List Char) : List Char :=
  ((splitDot sequence).map decodeItem).flatten

end TruePy

/-! ## Theorems -/

theorem isOkE_map {ε α β : Type} (f : α → β) (e : Except ε α) :
    isOkE (e.map f) = isOkE e := by
  cases e <;> rfl

theorem isOkE_exists {ε α : Type} {e : Except ε α} (h : isOkE e = true) :
    ∃ a, e = Except.ok a := by
  cases e with
  | ok a => exact ⟨a, rfl⟩
  | error e => cases h

namespace TruthPy

/-! ### Digit machinery: round-trips and digit bounds -/

theorem digitsRev_eq_digits (b : Nat) (hb : 1 < b) :
    ∀ f n, n ≤ f → digitsRev b f n = Nat.digits b n := by
  intro f
  induction f with
  | zero =>
    intro n hn
    obtain rfl : n = 0 := by omega
    simp [digitsRev]
  | succ f ih =>
    intro n hn
    match n with
    | 0 => simp [digitsRev]
    | n + 1 =>
      rw [digitsRev, Nat.digits_def' hb (Nat.succ_pos n)]
      have hdiv : (n + 1) / b ≤ f :=
        le_trans (Nat.div_le_div_left (by omega) (by omega))
          (by omega : (n + 1) / 2 ≤ f)
      rw [ih _ hdiv]

theorem natToChars_eq (b n : Nat) (hb : 1 < b) :
    natToChars b n =
      if n = 0 then ['0'] else ((Nat.digits b n).map digitChar).reverse := by
  rw [natToChars, digitsRev_eq_digits b hb n n le_rfl]

theorem isqrtIter_eq (n : Nat) :
    ∀ f g, g < f → isqrtIter n f g = Nat.sqrt.iter n g := by
  intro f
  induction f with
  | zero => intro g hg; omega
  | succ f ih =>
    intro g hg
    rw [isqrtIter, Nat.sqrt.iter]
    by_cases h : (g + n / g) / 2 < g
    · simp only [if_pos h, dif_pos h]
      exact ih _ (by omega)
    · simp only [if_neg h, dif_neg h]

theorem isqrtN_eq (n : Nat) : isqrtN n = Nat.sqrt n := by
  rw [isqrtN, Nat.sqrt]
  by_cases h : n ≤ 1
  · simp [h]
  · simp only [if_neg h]
    exact isqrtIter_eq n n (n / 2) (by omega)

theorem charValB_digitChar {b d : Nat} (hd : d < b) (hb : b ≤ 16) :
    charValB b (digitChar d) = some d := by
  have h16 : d < 16 := lt_of_lt_of_le hd hb
  have : charVal (digitChar d) = some d := by
    interval_cases d <;> decide
  simp [charValB, this, hd]

theorem charVals_digitChar {b : Nat} (hb : b ≤ 16) :
    ∀ (l : List Nat), (∀ d ∈ l, d < b) →
      charVals b (l.map digitChar) = some l := by
  intro l
  induction l with
  | nil => intro _; rfl
  | cons d t ih =>
    intro h
    have hd : d < b := h d (List.mem_cons_self _ _)
    have ht := ih (fun x hx => h x (List.mem_cons_of_mem _ hx))
    simp [charVals, charValB_digitChar hd hb, ht]

theorem parseChars_natToChars {b n : Nat} (hb1 : 1 < b) (hb2 : b ≤ 16) :
    parseChars b (natToChars b n) = some n := by
  by_cases h0 : n = 0
  · subst h0
    have h1 : charValB b '0' = some 0 := by
      have h2 : charVal '0' = some 0 := by decide
      simp [charValB, h2]
      omega
    simp [natToChars, parseChars, charVals, h1, Nat.ofDigits]
  · have hne : Nat.digits b n ≠ [] := Nat.digits_ne_nil_iff_ne_zero.mpr h0
    have hlt : ∀ d ∈ (Nat.digits b n).reverse, d < b := by
      intro d hd
      exact Nat.digits_lt_base hb1 (List.mem_reverse.mp hd)
    have hmap : charVals b ((Nat.digits b n).reverse.map digitChar)
        = some (Nat.digits b n).reverse := charVals_digitChar hb2 _ hlt
    have hrev : ((Nat.digits b n).map digitChar).reverse
        = (Nat.digits b n).reverse.map digitChar := by
      simp [List.map_reverse]
    have hnil : ((Nat.digits b n).map digitChar).reverse ≠ [] := by
      rw [hrev]
      intro h
      exact hne (by simpa using List.map_eq_nil_iff.mp h)
    rw [natToChars_eq b n hb1]
    simp only [if_neg h0, parseChars, if_neg hnil, hrev, hmap,
      Option.map_some']
    simp [Nat.ofDigits_digits, hne]

/-- Every character of a rendered digit string is a digit of the radix
(and in particular is parseable and is not a separator). -/
theorem mem_natToChars {b n : Nat} (hb1 : 1 < b) (hb2 : b ≤ 16) :
    ∀ c ∈ natToChars b n, ∃ d, d < b ∧ c = digitChar d := by
  intro c hc
  rw [natToChars_eq b n hb1] at hc
  by_cases h0 : n = 0
  · rw [if_pos h0] at hc
    simp at hc
    exact ⟨0, by omega, by simp [hc]; decide⟩
  · simp only [if_neg h0, List.mem_reverse, List.mem_map] at hc
    obtain ⟨d, hd, rfl⟩ := hc
    exact ⟨d, Nat.digits_lt_base hb1 hd, rfl⟩

/-! ### C2: base-conversion round-trips -/

/-- C2 counterexample: for `n = -1` the hexadecimal field is `"X1"`
(Python's `hex(-1)[2:].upper()`), which does not parse back to `-1` in
base 16 (Python `int("X1", 16)` raises `ValueError`); the claim's
round-trip fails on negative inputs. -/
theorem base_roundtrip_cex :
    ¬ parseIntB 16 (hexField (-1)) = some (-1) := by decide

/-- C2 (amended to nonnegative inputs): for every `n ≥ 0`, parsing the
hexadecimal, binary and octal text fields back in their radix reproduces
`n`. -/
theorem base_roundtrip (n : Int) (hn : 0 ≤ n) :
    parseIntB 16 (hexField n) = some n ∧
    parseIntB 2 (binField n) = some n ∧
    parseIntB 8 (octField n) = some n := by
  have hcast : (n.toNat : Int) = n := Int.toNat_of_nonneg hn
  refine ⟨?_, ?_, ?_⟩
  · simp [parseIntB, hexField, if_pos hn,
      parseChars_natToChars (b := 16) (by norm_num) (by norm_num), hcast]
  · simp [parseIntB, binField, if_pos hn,
      parseChars_natToChars (b := 2) (by norm_num) (by norm_num), hcast]
  · simp [parseIntB, octField, if_pos hn,
      parseChars_natToChars (b := 8) (by norm_num) (by norm_num), hcast]

/-- C2 witness. -/
theorem base_roundtrip_w :
    parseIntB 16 (hexField 255) = some 255 ∧
    parseIntB 2 (binField 255) = some 255 ∧
    parseIntB 8 (octField 255) = some 255 :=
  base_roundtrip 255 (by decide)

/-! ### C3: factorize -/

/-- The trial-division loop computes the prime factorisation: under the
loop invariant that no candidate below the current trial divisor `k + 2`
divides the cofactor, `factorizeAux k m` is `m.primeFactorsList`. -/
theorem factorizeAux_eq_primeFactorsList :
    ∀ k m, 1 ≤ m → (∀ j, 2 ≤ j → j < k + 2 → ¬ j ∣ m) →
      factorizeAux k m = m.primeFactorsList := by
  intro k m
  induction k, m using factorizeAux.induct with
  | case1 k m hle hdvd ih =>
    intro hm hinv
    have hd2 : (2 : Nat) ≤ k + 2 := by omega
    have hdm : (k + 2) ∣ m := Nat.dvd_of_mod_eq_zero hdvd
    have hsq : 2 * 2 ≤ (k + 2) * (k + 2) := Nat.mul_le_mul (by omega) (by omega)
    have hm2 : 2 ≤ m := by omega
    have hklem : k + 2 ≤ m :=
      le_trans (Nat.le_mul_of_pos_left _ (by omega)) hle
    -- the trial divisor is the least factor of the cofactor
    have hminfac : m.minFac = k + 2 := by
      have h1 : m.minFac ≤ k + 2 := Nat.minFac_le_of_dvd hd2 hdm
      have h2 : 2 ≤ m.minFac := (Nat.minFac_prime (by omega)).two_le
      rcases Nat.lt_or_ge m.minFac (k + 2) with hlt | hge
      · exact absurd (Nat.minFac_dvd m) (hinv _ h2 hlt)
      · omega
    have hpos : 1 ≤ m / (k + 2) := (Nat.one_le_div_iff (by omega)).mpr hklem
    have hstep : factorizeAux k m = (k + 2) :: factorizeAux k (m / (k + 2)) := by
      rw [factorizeAux, if_pos hle, if_pos hdvd]
    rw [hstep]
    obtain ⟨j, rfl⟩ : ∃ j, m = j + 2 := ⟨m - 2, by omega⟩
    rw [Nat.primeFactorsList_add_two, hminfac]
    congr 1
    refine ih hpos ?_
    intro i hi2 hilt hidvd
    exact hinv i hi2 hilt (hidvd.trans (Nat.div_dvd_of_dvd hdm))
  | case2 k m hle hndvd ih =>
    intro hm hinv
    rw [factorizeAux, if_pos hle, if_neg hndvd]
    refine ih hm ?_
    intro j hj2 hjlt hjdvd
    rcases Nat.lt_or_ge j (k + 2) with hlt | hge
    · exact hinv j hj2 hlt hjdvd
    · have hj : j = k + 2 := by omega
      subst hj
      exact hndvd (Nat.mod_eq_zero_of_dvd hjdvd)
  | case3 k m hgt h1m =>
    intro hm hinv
    -- loop exit with cofactor > 1: the cofactor is prime
    have hprime : m.Prime := by
      refine Nat.prime_def_le_sqrt.mpr ⟨by omega, ?_⟩
      intro j hj2 hjle hjdvd
      have hs : Nat.sqrt m < k + 2 := Nat.sqrt_lt.mpr (by omega)
      exact hinv j hj2 (by omega) hjdvd
    rw [factorizeAux, if_neg hgt, if_pos h1m,
      Nat.primeFactorsList_prime hprime]
  | case4 k m hgt h1m =>
    intro hm hinv
    have : m = 1 := by omega
    subst this
    rw [factorizeAux]
    simp [hgt, Nat.primeFactorsList_one]

theorem factorize_eq (n : Int) (hn : 2 ≤ n) :
    factorize n = n.toNat.primeFactorsList.map Int.ofNat := by
  rw [factorize, if_neg (by omega),
    factorizeAux_eq_primeFactorsList 0 n.toNat (by omega)
      (fun j hj2 hjlt => by omega)]

/-- C3: for `n ≥ 2` the elements of `factorize n` multiply back to `n`,
are all prime, and are listed in nondecreasing order; for `n < 2` the
result is the single-element list `[n]`. -/
theorem factorize_claim (n : Int) :
    (2 ≤ n →
      (factorize n).prod = n ∧
      (∀ p ∈ factorize n, p.toNat.Prime) ∧
      List.Sorted (· ≤ ·) (factorize n)) ∧
    (n < 2 → factorize n = [n]) := by
  constructor
  · intro hn
    rw [factorize_eq n hn]
    refine ⟨?_, ?_, ?_⟩
    · show ((n.toNat.primeFactorsList.map (Nat.cast : Nat → Int)).prod = n)
      rw [← Nat.cast_list_prod,
        Nat.prod_primeFactorsList (by omega : n.toNat ≠ 0)]
      omega
    · intro p hp
      simp only [List.mem_map] at hp
      obtain ⟨q, hq, rfl⟩ := hp
      simpa using Nat.prime_of_mem_primeFactorsList hq
    · exact List.Pairwise.map _ (fun a b h => Int.ofNat_le.mpr h)
        (Nat.primeFactorsList_sorted n.toNat)
  · intro hn
    rw [factorize, if_pos hn]

theorem factorize_12 : factorize 12 = [2, 2, 3] := by
  simp [factorize, factorizeAux]

/-- C3 witness. -/
theorem factorize_claim_w :
    (2 : Int).toNat.Prime ∧ (factorize 12).prod = 12 ∧ factorize 1 = [1] :=
  ⟨((factorize_claim 12).1 (by decide)).2.1 2 (by rw [factorize_12]; decide),
   ((factorize_claim 12).1 (by decide)).1,
   (factorize_claim 1).2 (by decide)⟩

/-! ### C4: is_prime -/

/-- `isPrime` decides primality: the trial-division loop over
`range(2, sqrt(n) + 1)` returns true exactly on the primes (for `n < 2`
it is false by the explicit guard). -/
theorem isPrime_iff (n : Int) : isPrime n = true ↔ 2 ≤ n ∧ n.toNat.Prime := by
  by_cases hn : n < 2
  · rw [isPrime, if_pos hn]
    simp
    omega
  · push_neg at hn
    have hm : 2 ≤ n.toNat := by omega
    rw [isPrime, if_neg (by omega), isqrtN_eq]
    rw [List.all_eq_true]
    constructor
    · intro h
      refine ⟨by omega, Nat.prime_def_le_sqrt.mpr ⟨hm, ?_⟩⟩
      intro j hj2 hjle hjdvd
      have hmem : j ∈ List.range' 2 (Nat.sqrt n.toNat - 1) := by
        rw [List.mem_range'_1]
        have hs : 1 ≤ Nat.sqrt n.toNat := by
          rw [Nat.le_sqrt]
          omega
        omega
      have := h j hmem
      simp only [bne_iff_ne, ne_eq] at this
      exact this (Nat.mod_eq_zero_of_dvd hjdvd)
    · rintro ⟨-, hp⟩ j hj
      rw [List.mem_range'_1] at hj
      simp only [bne_iff_ne, ne_eq]
      intro hmod
      exact (Nat.prime_def_le_sqrt.mp hp).2 j hj.1 (by omega)
        (Nat.dvd_of_mod_eq_zero hmod)

/-- C4: `is_prime` is false below 2; for `n ≥ 2` it is true exactly when
no integer in `[2, ⌊√n⌋]` divides `n`; and it is false whenever
`factorize n` has more than one element. -/
theorem isPrime_claim (n : Int) :
    (n < 2 → isPrime n = false) ∧
    (2 ≤ n → (isPrime n = true ↔
      ∀ i : Nat, 2 ≤ i → i ≤ Nat.sqrt n.toNat → ¬ i ∣ n.toNat)) ∧
    (1 < (factorize n).length → isPrime n = false) := by
  refine ⟨?_, ?_, ?_⟩
  · intro hn
    rw [isPrime, if_pos hn]
  · intro hn
    rw [isPrime_iff]
    constructor
    · rintro ⟨-, hp⟩
      exact fun i h2 hle => (Nat.prime_def_le_sqrt.mp hp).2 i h2 hle
    · intro h
      exact ⟨hn, Nat.prime_def_le_sqrt.mpr ⟨by omega, h⟩⟩
  · intro hlen
    by_cases hn : n < 2
    · rw [factorize, if_pos hn] at hlen
      simp at hlen
    · push_neg at hn
      rw [factorize_eq n hn, List.length_map] at hlen
      cases hip : isPrime n with
      | false => rfl
      | true =>
        have hp := (isPrime_iff n).mp hip
        rw [Nat.primeFactorsList_prime hp.2] at hlen
        simp at hlen

theorem factorize_9 : factorize 9 = [3, 3] := by
  simp [factorize, factorizeAux]

/-- C4 witness. -/
theorem isPrime_claim_w :
    isPrime 0 = false ∧ isPrime 9 = false ∧
    (isPrime 7 = true ↔
      ∀ i : Nat, 2 ≤ i → i ≤ Nat.sqrt (7 : Int).toNat → ¬ i ∣ (7 : Int).toNat) :=
  ⟨(isPrime_claim 0).1 (by decide),
   (isPrime_claim 9).2.2 (by rw [factorize_9]; decide),
   (isPrime_claim 7).2.1 (by decide)⟩

/-! ### C5: find_previous_primes -/

/-- The scanning loop returns the first `k` primes of the descending
candidate sequence. -/
theorem fppGo_eq_take :
    ∀ c k, fppGo c k = ((descList c).filter (fun p => isPrime p)).take k := by
  intro c
  induction c using descList.induct with
  | case1 => intro k; simp [fppGo, descList]
  | case2 => intro k; simp [fppGo, descList]
  | case3 c ih =>
    intro k
    rw [fppGo, descList, List.filter_cons]
    by_cases hk : k = 0
    · subst hk
      simp
    · obtain ⟨k', rfl⟩ : ∃ k', k = k' + 1 := ⟨k - 1, by omega⟩
      rw [if_neg hk]
      by_cases hp : isPrime ((c + 2 : Nat) : Int)
      · rw [if_pos hp, if_pos hp, List.take_succ_cons, ih]
        simp
      · rw [if_neg hp, if_neg (by simpa using hp), ih]

theorem descList_mem : ∀ c, ∀ p ∈ descList c, 2 ≤ p ∧ p ≤ (c : Int) := by
  intro c
  induction c using descList.induct with
  | case1 => simp [descList]
  | case2 => simp [descList]
  | case3 c ih =>
    intro p hp
    rw [descList] at hp
    rcases List.mem_cons.mp hp with rfl | hmem
    · constructor <;> [push_cast; skip] <;> omega
    · have := ih p hmem
      push_cast at this ⊢
      omega

theorem descList_sorted : ∀ c, List.Sorted (· > ·) (descList c) := by
  intro c
  induction c using descList.induct with
  | case1 => simp [descList]
  | case2 => simp [descList]
  | case3 c ih =>
    rw [descList, List.sorted_cons]
    refine ⟨?_, ih⟩
    intro p hp
    have := (descList_mem _ p hp).2
    push_cast at this ⊢
    omega

/-- Counting primes over the descending candidate list agrees with
counting them over `range`: both count the primes in `[0, c]`. -/
theorem descList_count :
    ∀ c, ((descList c).filter (fun p => isPrime p)).length
      = ((List.range (c + 1)).filter (fun k : Nat => isPrime (k : Int))).length := by
  intro c
  induction c using descList.induct with
  | case1 => rfl
  | case2 => rfl
  | case3 c ih =>
    rw [descList, List.filter_cons, List.range_succ, List.filter_append,
      List.length_append, List.filter_cons, List.filter_nil]
    by_cases hp : isPrime ((c + 2 : Nat) : Int)
    · rw [if_pos hp, if_pos hp]
      simp only [List.length_cons, ih]
      simp
    · rw [if_neg hp, if_neg hp]
      simp [ih]

/-- The filtered candidate list counts exactly the primes below `n`. -/
theorem descList_filter_length (n : Int) :
    ((descList (n - 1).toNat).filter (fun p => isPrime p)).length
      = primesBelow n := by
  rw [descList_count, primesBelow]
  by_cases hn : 1 ≤ n
  · have h1 : (n - 1).toNat + 1 = n.toNat := by omega
    rw [h1]
  · have h1 : (n - 1).toNat = 0 := by omega
    have h2 : n.toNat = 0 := by omega
    rw [h1, h2]
    rfl

/-- C5: `find_previous_primes(n, 8)` is a strictly decreasing list of
primes below `n` whose length is `min 8 (number of primes below n)`, and
it is empty (rather than an error) for `n ≤ 2`. -/
theorem fpp_claim (n : Int) :
    List.Sorted (· > ·) (findPreviousPrimes n 8) ∧
    (∀ p ∈ findPreviousPrimes n 8, p.toNat.Prime ∧ p < n) ∧
    (findPreviousPrimes n 8).length = min 8 (primesBelow n) ∧
    (n ≤ 2 → findPreviousPrimes n 8 = []) := by
  have hrw : findPreviousPrimes n 8
      = ((descList (n - 1).toNat).filter (fun p => isPrime p)).take 8 := by
    rw [findPreviousPrimes, fppGo_eq_take]
  refine ⟨?_, ?_, ?_, ?_⟩
  · rw [hrw]
    exact ((descList_sorted _).sublist
      ((List.take_sublist _ _).trans (List.filter_sublist _)))
  · intro p hp
    rw [hrw] at hp
    have hmem := List.mem_of_mem_take hp
    rw [List.mem_filter] at hmem
    obtain ⟨hmemd, hprime⟩ := hmem
    have h2 := (isPrime_iff p).mp hprime
    have hbound := descList_mem _ p hmemd
    refine ⟨h2.2, ?_⟩
    -- p ≤ the initial candidate n - 1 < n
    have : ((n - 1).toNat : Int) ≤ n - 1 ∨ ((n - 1).toNat : Int) = 0 := by
      omega
    omega
  · rw [hrw, List.length_take, descList_filter_length]
  · intro hn
    rw [hrw]
    have hc : (n - 1).toNat = 0 ∨ (n - 1).toNat = 1 := by omega
    rcases hc with hc | hc <;> rw [hc] <;> rfl

/-- C5 witness. -/
theorem fpp_claim_w :
    (19 : Int).toNat.Prime ∧ (19 : Int) < 20 ∧ findPreviousPrimes 1 8 = [] :=
  ⟨((fpp_claim 20).2.1 19 (by decide)).1,
   ((fpp_claim 20).2.1 19 (by decide)).2,
   (fpp_claim 1).2.2.2 (by decide)⟩

/-! ### C6: is_fibonacci -/

/-- The integer-square-root perfect-square test used by `is_fibonacci`
decides `IsSquare` on nonnegative integers. -/
theorem sq_test_iff (m : Int) (hm : 0 ≤ m) :
    ((isqrtN m.toNat : Nat) : Int) ^ 2 = m ↔ IsSquare m := by
  have hNm : ((m.toNat : Nat) : Int) = m := Int.toNat_of_nonneg hm
  rw [isqrtN_eq]
  constructor
  · intro h
    refine ⟨(Nat.sqrt m.toNat : Int), ?_⟩
    nth_rewrite 1 [← h]
    ring
  · intro hsq
    have hsqN : IsSquare m.toNat := by
      rw [← Int.isSquare_natCast_iff, hNm]
      exact hsq
    obtain ⟨r, hr⟩ := hsqN
    have : Nat.sqrt m.toNat ^ 2 = m.toNat :=
      (Nat.exists_mul_self' m.toNat).mp ⟨r, by rw [hr]; ring⟩
    rw [← hNm]
    exact_mod_cast this

/-- C6: `is_fibonacci` returns `False` for every negative input and
never raises; for `n ≥ 0` it returns `True` exactly when `5n²+4` or
`5n²−4` is a perfect square; concretely it accepts 0,1,2,3,5,8,13,21 and
rejects 4,6,7,9,10. -/
theorem fib_claim :
    (∀ n : Int, n < 0 → isFibonacci n = some false) ∧
    (∀ n : Int, 0 ≤ n →
      (isFibonacci n = some true ↔
        IsSquare (5 * n ^ 2 + 4) ∨ IsSquare (5 * n ^ 2 - 4))) ∧
    (([0, 1, 2, 3, 5, 8, 13, 21] : List Int).all
      (fun n => isFibonacci n == some true) = true) ∧
    (([4, 6, 7, 9, 10] : List Int).all
      (fun n => isFibonacci n == some false) = true) := by
  have hmain : ∀ n : Int, 0 ≤ n →
      (isFibonacci n = some true ↔
        IsSquare (5 * n ^ 2 + 4) ∨ IsSquare (5 * n ^ 2 - 4)) := by
    intro n hn
    have hx : 5 * n ^ 2 = 5 * n * n := by ring
    have hx4 : (0 : Int) ≤ 5 * n * n + 4 := by positivity
    rw [isFibonacci, if_neg (by omega)]
    simp only [pyIsqrt, if_neg (by omega : ¬ 5 * n * n + 4 < 0)]
    by_cases hA : ((isqrtN (5 * n * n + 4).toNat : Nat) : Int) ^ 2
        = 5 * n * n + 4
    · rw [if_pos hA]
      simp only [true_iff]
      exact Or.inl (by rw [hx]; exact (sq_test_iff _ hx4).mp hA)
    · rw [if_neg hA]
      rcases eq_or_lt_of_le hn with hn0 | hn1
      · exfalso
        apply hA
        rw [← hn0]
        decide
      · have hx4' : (0 : Int) ≤ 5 * n * n - 4 := by nlinarith
        rw [if_neg (by omega : ¬ 5 * n * n - 4 < 0)]
        have hnotA : ¬ IsSquare (5 * n * n + 4) :=
          fun h => hA ((sq_test_iff _ hx4).mpr h)
        rw [Option.some_inj, decide_eq_true_iff, hx,
          sq_test_iff _ hx4', or_iff_right hnotA]
  refine ⟨?_, hmain, by decide, by decide⟩
  intro n hn
  rw [isFibonacci, if_pos hn]

/-- C6 witness. -/
theorem fib_claim_w :
    isFibonacci (-2) = some false ∧ isFibonacci 3 = some true :=
  ⟨fib_claim.1 (-2) (by decide),
   (fib_claim.2.1 3 (by decide)).mpr (Or.inl ⟨7, by decide⟩)⟩

/-! ### C7: boundaries of the magnitude reinterpretations -/

/-- C7: `number_to_ipv4` produces valid dotted quads at 0 and 2³²−1 and
the invalid marker at 2³² and at every `n` outside `[0, 2³²−1]`;
`unix_to_datetime` produces a valid calendar string at 2000000000 and the
out-of-range marker at 2000000001 and at every `n` outside
`[0, 2000000000]`. -/
theorem bounds_claim :
    numberToIpv4 0 = "0.0.0.0".toList ∧
    numberToIpv4 4294967295 = "255.255.255.255".toList ∧
    numberToIpv4 4294967296 = "Invalid IPv4 address".toList ∧
    (∀ n : Int, n < 0 ∨ 4294967295 < n →
      numberToIpv4 n = "Invalid IPv4 address".toList) ∧
    unixToDatetime 2000000000
      = "Wednesday, 18 May 2033 at 03:33:20 UTC".toList ∧
    unixToDatetime 2000000001
      = "Invalid or out-of-range timestamp".toList ∧
    (∀ n : Int, n < 0 ∨ 2000000000 < n →
      unixToDatetime n = "Invalid or out-of-range timestamp".toList) := by
  refine ⟨by decide, by decide, by decide, ?_, by decide, by decide, ?_⟩
  · intro n h
    rw [numberToIpv4, if_neg (by omega)]
  · intro n h
    rw [unixToDatetime, if_neg (by omega)]

/-- C7 witness. -/
theorem bounds_claim_w :
    numberToIpv4 (-7) = "Invalid IPv4 address".toList ∧
    unixToDatetime (-7) = "Invalid or out-of-range timestamp".toList :=
  ⟨bounds_claim.2.2.2.1 (-7) (Or.inl (by decide)),
   bounds_claim.2.2.2.2.2.2 (-7) (Or.inl (by decide))⟩

/-! ### C9: termination of the three loops

Each loop is rendered a second time as a step-indexed (fuel-bounded)
transition function that returns `none` when the fuel runs out; the
claim's termination content is that an explicit fuel, computed from the
input, always suffices and yields the value of the total function. -/

theorem factorizeLoop_eq :
    ∀ fuel k m, 1 ≤ m → 2 * m + 1 - k < fuel →
      factorizeLoop fuel k m = some (factorizeAux k m) := by
  intro fuel
  induction fuel with
  | zero => intro k m _ h; omega
  | succ fuel ih =>
    intro k m hm hfuel
    rw [factorizeLoop]
    by_cases h1 : (k + 2) * (k + 2) ≤ m
    · have hkm : k + 2 ≤ m :=
        le_trans (Nat.le_mul_of_pos_left _ (by omega)) h1
      by_cases h2 : m % (k + 2) = 0
      · have hpos : 1 ≤ m / (k + 2) :=
          (Nat.one_le_div_iff (by omega)).mpr hkm
        have hdiv : m / (k + 2) ≤ m / 2 :=
          Nat.div_le_div_left (by omega) (by omega)
        rw [if_pos h1, if_pos h2, ih k (m / (k + 2)) hpos (by omega)]
        conv_rhs => rw [factorizeAux]
        rw [if_pos h1, if_pos h2]
        rfl
      · rw [if_pos h1, if_neg h2, ih (k + 1) m hm (by omega)]
        conv_rhs => rw [factorizeAux]
        rw [if_pos h1, if_neg h2]
    · rw [if_neg h1]
      conv_rhs => rw [factorizeAux]
      rw [if_neg h1]

theorem fppLoop_eq :
    ∀ fuel c k, c < fuel → fppLoop fuel c k = some (fppGo c k) := by
  intro fuel
  induction fuel with
  | zero => intro c k h; omega
  | succ fuel ih =>
    intro c k hc
    match c with
    | 0 => rw [fppLoop]; simp [fppGo]
    | 1 => rw [fppLoop]; simp [fppGo]
    | c + 2 =>
      rw [fppLoop, if_pos (by omega), fppGo]
      by_cases hk : k = 0
      · rw [if_pos hk, if_pos hk]
      · rw [if_neg hk, if_neg hk]
        have hc1 : c + 2 - 1 = c + 1 := by omega
        by_cases hp : isPrime ((c + 2 : Nat) : Int)
        · rw [if_pos hp, if_pos hp, hc1, ih (c + 1) (k - 1) (by omega)]
          rfl
        · rw [if_neg hp, if_neg hp, hc1, ih (c + 1) k (by omega)]

theorem isPrimeLoop_eq :
    ∀ fuel i m, isqrtN m + 2 - i < fuel →
      isPrimeLoop m fuel i
        = some ((List.range' i (isqrtN m + 1 - i)).all
            (fun j => m % j != 0)) := by
  intro fuel
  induction fuel with
  | zero => intro i m h; omega
  | succ fuel ih =>
    intro i m hfuel
    rw [isPrimeLoop]
    by_cases hi : i ≤ isqrtN m
    · have hlen : isqrtN m + 1 - i = (isqrtN m + 1 - (i + 1)) + 1 := by omega
      rw [if_pos hi, hlen, List.range'_succ, List.all_cons]
      by_cases hmod : m % i = 0
      · rw [if_pos hmod]
        simp [hmod]
      · rw [if_neg hmod, ih (i + 1) m (by omega)]
        simp [hmod]
    · have hlen : isqrtN m + 1 - i = 0 := by omega
      rw [if_neg hi, hlen]
      rfl

/-- C9: the three loops terminate on every integer input with an explicit
fuel bound — `factorize` within `2·n + 2` iterations (the divisor-squared
test bounds the loop), `find_previous_primes` within `n` iterations (the
candidate reaches 2 or 8 primes are found), and `is_prime` within
`√n + 1` iterations — and the step-indexed runs compute the respective
total functions. -/
theorem termination_claim (n : Int) :
    factorizeFueled n (2 * n.toNat + 2) = some (factorize n) ∧
    fppFueled n 8 ((n - 1).toNat + 1) = some (findPreviousPrimes n 8) ∧
    isPrimeFueled n (isqrtN n.toNat + 1) = some (isPrime n) := by
  refine ⟨?_, ?_, ?_⟩
  · by_cases hn : n < 2
    · rw [factorizeFueled, if_pos hn, factorize, if_pos hn]
    · rw [factorizeFueled, if_neg hn, factorize, if_neg hn,
        factorizeLoop_eq _ 0 n.toNat (by omega) (by omega)]
      rfl
  · rw [fppFueled, findPreviousPrimes, fppLoop_eq _ _ 8 (by omega)]
  · by_cases hn : n < 2
    · rw [isPrimeFueled, if_pos hn, isPrime, if_pos hn]
    · rw [isPrimeFueled, if_neg hn, isPrime, if_neg hn,
        isPrimeLoop_eq _ 2 n.toNat (by omega)]
      have hlen : isqrtN n.toNat + 1 - 2 = isqrtN n.toNat - 1 := by omega
      rw [hlen]

/-! ### C1: error propagation through analyze_number -/

theorem getThousands_ok (idx : Nat) (h : idx < 4) :
    ∃ t, getThousands idx = Except.ok t := by
  interval_cases idx <;> exact ⟨_, rfl⟩

theorem getThousands_err (idx : Nat) (h : 4 ≤ idx) :
    getThousands idx = Except.error "IndexError: list index out of range" := by
  rw [getThousands]
  have hnone : thousandsWords.get? idx = none := by
    rw [List.get?_eq_none]
    simp [thousandsWords]
    omega
  rw [hnone]

theorem chunkPart_ok (chunk idx : Nat) (h : idx < 4 ∨ chunk = 0) :
    ∃ p, chunkPart chunk idx = Except.ok p := by
  rw [chunkPart]
  by_cases hch : chunk ≠ 0
  · rw [if_pos hch]
    rcases h with h | h
    · by_cases hidx : 0 < idx
      · rw [if_pos hidx]
        obtain ⟨t, ht⟩ := getThousands_ok idx h
        exact ⟨_, by rw [ht]; rfl⟩
      · rw [if_neg hidx]
        exact ⟨_, rfl⟩
    · exact absurd h hch
  · rw [if_neg hch]
    exact ⟨_, rfl⟩

theorem chunkPart_err (chunk idx : Nat) (h1 : chunk ≠ 0) (h2 : 4 ≤ idx) :
    chunkPart chunk idx
      = Except.error "IndexError: list index out of range" := by
  rw [chunkPart, if_pos h1, if_pos (by omega : 0 < idx),
    getThousands_err idx h2]
  rfl

theorem chunkPart_ok_inv {chunk idx : Nat} {p : List (List Char)}
    (h : chunkPart chunk idx = Except.ok p) : idx < 4 ∨ chunk = 0 := by
  by_contra hc
  push_neg at hc
  rw [chunkPart_err chunk idx hc.2 (by omega)] at h
  cases h

theorem chunk_pow_step (m idx : Nat) (h0 : m ≠ 0)
    (hhead : idx < 4 ∨ m % 1000 = 0) :
    (m / 1000 < 1000 ^ (3 - idx)) ↔ (m < 1000 ^ (4 - idx)) := by
  by_cases h4 : idx < 4
  · have he : 4 - idx = (3 - idx) + 1 := by omega
    rw [he, pow_succ, Nat.div_lt_iff_lt_mul (by omega)]
  · have hch : m % 1000 = 0 := by
      rcases hhead with h | h
      · omega
      · exact h
    have e1 : 3 - idx = 0 := by omega
    have e2 : 4 - idx = 0 := by omega
    rw [e1, e2]
    have hm : 1000 ≤ m := by omega
    constructor <;> intro hlt <;> omega

/-- The chunking loop succeeds exactly when every nonzero chunk sits at a
scale index with a scale word, i.e. when `n < 1000^(4-idx)`. -/
theorem chunksLoop_isOk :
    ∀ m idx, isOkE (chunksLoop m idx) = true ↔ m < 1000 ^ (4 - idx) := by
  intro m
  induction m using Nat.strong_induction_on with
  | _ m ih =>
    intro idx
    by_cases h0 : m = 0
    · subst h0
      rw [chunksLoop, if_pos rfl]
      simp [isOkE, Nat.pos_pow_of_pos (4 - idx) (by omega : 0 < 1000)]
    · have hrec := ih (m / 1000) (Nat.div_lt_self (by omega) (by omega))
        (idx + 1)
      have hstep : 4 - (idx + 1) = 3 - idx := by omega
      rw [hstep] at hrec
      rw [chunksLoop, if_neg h0]
      split
      · rename_i e heq
        simp only [isOkE, Bool.false_eq_true, false_iff]
        intro hlt
        by_cases hcase : idx < 4 ∨ m % 1000 = 0
        · obtain ⟨p, hp⟩ := chunkPart_ok _ _ hcase
          rw [hp] at heq
          cases heq
        · push_neg at hcase
          have e2 : 4 - idx = 0 := by omega
          rw [e2, pow_zero] at hlt
          omega
      · rename_i here heq
        have hhead := chunkPart_ok_inv heq
        split
        · rename_i e2 heq2
          rw [heq2] at hrec
          simp only [isOkE, Bool.false_eq_true, false_iff] at hrec ⊢
          intro hlt
          exact hrec ((chunk_pow_step m idx h0 hhead).mpr hlt)
        · rename_i rest heq2
          rw [heq2] at hrec
          simp only [isOkE, true_iff] at hrec ⊢
          exact (chunk_pow_step m idx h0 hhead).mp hrec

theorem numberToEnglish_isOk (n : Int) :
    isOkE (numberToEnglish n) = true ↔ n.natAbs < 10 ^ 12 := by
  have h1000 : (1000 : Nat) ^ (4 - 0) = 10 ^ 12 := by norm_num
  rw [numberToEnglish]
  by_cases h0 : n = 0
  · rw [if_pos h0]
    subst h0
    simp [isOkE]
  · rw [if_neg h0]
    by_cases hneg : n < 0
    · rw [if_pos hneg, isOkE_map, chunksLoop_isOk, h1000]
      have ha : (-n).toNat = n.natAbs := by omega
      rw [ha]
    · rw [if_neg hneg, isOkE_map, chunksLoop_isOk, h1000]
      have ha : n.toNat = n.natAbs := by omega
      rw [ha]

theorem pyIntOfChar_digit {c : Char} (h : ∃ d, d < 10 ∧ c = digitChar d) :
    ∃ v, pyIntOfChar c = Except.ok v := by
  obtain ⟨d, hd, rfl⟩ := h
  refine ⟨d, ?_⟩
  simp [pyIntOfChar, charValB_digitChar hd (by norm_num)]

theorem sumDigits_ok :
    ∀ l : List Char, (∀ c ∈ l, ∃ v, pyIntOfChar c = Except.ok v) →
      ∃ s, sumDigits l = Except.ok s := by
  intro l
  induction l with
  | nil => exact fun _ => ⟨0, rfl⟩
  | cons c t ih =>
    intro h
    obtain ⟨v, hv⟩ := h c (List.mem_cons_self _ _)
    obtain ⟨s, hs⟩ := ih (fun x hx => h x (List.mem_cons_of_mem _ hx))
    exact ⟨v + s, by simp [sumDigits, hv, hs]⟩

theorem digitSum_ok (n : Int) (hn : 0 ≤ n) :
    ∃ s, digitSum n = Except.ok s := by
  rw [digitSum, strOfInt, if_neg (by omega)]
  refine sumDigits_ok _ ?_
  intro c hc
  obtain ⟨d, hd, hcd⟩ :=
    mem_natToChars (b := 10) (by norm_num) (by norm_num) c hc
  exact pyIntOfChar_digit ⟨d, hd, hcd⟩

theorem digitSum_neg (n : Int) (hn : n < 0) :
    digitSum n
      = Except.error "ValueError: invalid literal for int() with base 10" := by
  rw [digitSum, strOfInt, if_pos hn]
  have h1 : pyIntOfChar '-'
      = Except.error "ValueError: invalid literal for int() with base 10" := by
    decide
  simp [sumDigits, h1]

theorem isFibonacci_total (n : Int) : ∃ b, isFibonacci n = some b := by
  by_cases hneg : n < 0
  · exact ⟨false, by rw [isFibonacci, if_pos hneg]⟩
  · push_neg at hneg
    rcases eq_or_lt_of_le hneg with h0 | h1
    · exact ⟨true, by rw [← h0]; decide⟩
    · have hx4 : (0 : Int) ≤ 5 * n * n + 4 := by positivity
      have hx4m : (0 : Int) ≤ 5 * n * n - 4 := by nlinarith
      rw [isFibonacci, if_neg (by omega)]
      simp only [pyIsqrt, if_neg (by omega : ¬ 5 * n * n + 4 < 0)]
      by_cases hA : ((isqrtN (5 * n * n + 4).toNat : Nat) : Int) ^ 2
          = 5 * n * n + 4
      · exact ⟨true, by rw [if_pos hA]⟩
      · rw [if_neg hA, if_neg (by omega : ¬ 5 * n * n - 4 < 0)]
        exact ⟨_, rfl⟩

theorem analyzeNumber_ok (n : Int) (h0 : 0 ≤ n) (h1 : n < 10 ^ 12) :
    ∃ ew ds fb sq, analyzeNumber n = Except.ok (buildResult n ew ds fb sq) := by
  have hew : isOkE (numberToEnglish n) = true :=
    (numberToEnglish_isOk n).mpr (by omega)
  obtain ⟨ew, hew'⟩ := isOkE_exists hew
  obtain ⟨ds, hds⟩ := digitSum_ok n h0
  obtain ⟨fb, hfb⟩ := isFibonacci_total n
  have hsq : pySqrt n = Except.ok (isqrtN n.toNat) := by
    rw [pySqrt, if_neg (by omega)]
  exact ⟨ew, ds, fb, isqrtN n.toNat,
    by rw [analyzeNumber, hew', hds, hfb, hsq]⟩

theorem analyzeNumber_isOk (n : Int) :
    isOkE (analyzeNumber n) = true ↔ 0 ≤ n ∧ n < 10 ^ 12 := by
  constructor
  · intro h
    by_cases hneg : n < 0
    · exfalso
      cases hE : numberToEnglish n with
      | error e => rw [analyzeNumber, hE] at h; cases h
      | ok ew =>
        rw [analyzeNumber, hE, digitSum_neg n hneg] at h
        cases h
    · push_neg at hneg
      refine ⟨hneg, ?_⟩
      by_contra h12
      have habs : ¬ (n.natAbs < 10 ^ 12) := by omega
      have hE : isOkE (numberToEnglish n) = false := by
        cases hok : isOkE (numberToEnglish n) with
        | false => rfl
        | true => exact absurd ((numberToEnglish_isOk n).mp hok) habs
      cases hE' : numberToEnglish n with
      | error e => rw [analyzeNumber, hE'] at h; cases h
      | ok ew => rw [hE'] at hE; cases hE
  · rintro ⟨h0, h1⟩
    obtain ⟨ew, ds, fb, sq, heq⟩ := analyzeNumber_ok n h0 h1
    rw [heq]
    rfl

/-- C1 counterexample: `analyze_number(-1)` raises (Python evaluates
`int('-')` inside the digit-sum line and `math.sqrt(-1)` later), so the
engine does not return a record for every integer. -/
theorem analyze_cex : isOkE (analyzeNumber (-1)) = false := by
  cases h : isOkE (analyzeNumber (-1)) with
  | false => rfl
  | true => exact absurd ((analyzeNumber_isOk (-1)).mp h) (by decide)

/-- C1 (amended): the analysis returns a fully populated record exactly
for `0 ≤ n < 10¹²` (negative inputs raise `ValueError` in the digit-sum
and square-root lines, and inputs with a chunk beyond "billion" raise
`IndexError` in the English-words line); within that domain an
out-of-range magnitude only sends the timestamp/IPv4 fields to their
sentinel strings while the record is still produced. -/
theorem analyze_claim (n : Int) :
    (isOkE (analyzeNumber n) = true ↔ 0 ≤ n ∧ n < 10 ^ 12) ∧
    (4294967295 < n → n < 10 ^ 12 →
      (analyzeNumber n).map (fun r => r.ipv4)
          = Except.ok ("Invalid IPv4 address".toList) ∧
      (analyzeNumber n).map (fun r => r.unix_time)
          = Except.ok ("Invalid or out-of-range timestamp".toList)) := by
  refine ⟨analyzeNumber_isOk n, ?_⟩
  intro hlow hhigh
  obtain ⟨ew, ds, fb, sq, heq⟩ := analyzeNumber_ok n (by omega) hhigh
  rw [heq]
  constructor
  · show Except.ok (numberToIpv4 n) = _
    rw [numberToIpv4, if_neg (by omega)]
  · show Except.ok (unixToDatetime n) = _
    rw [unixToDatetime, if_neg (by omega)]

/-- C1 witness. -/
theorem analyze_claim_w :
    (analyzeNumber 5000000000).map (fun r => r.ipv4)
        = Except.ok ("Invalid IPv4 address".toList) ∧
    (analyzeNumber 5000000000).map (fun r => r.unix_time)
        = Except.ok ("Invalid or out-of-range timestamp".toList) :=
  (analyze_claim 5000000000).2 (by decide) (by decide)

/-! ### C8: the n = 255 end-to-end scenario -/

theorem factorize_255 : factorize 255 = [3, 5, 17] := by
  simp [factorize, factorizeAux]

/-- C8 counterexample: the parity field of the record for 255 is `"Odd"`
(255 is odd), not `"Even"` as the claim states. -/
theorem e2e_255_cex :
    ¬ (analyzeNumber 255).map (fun r => r.parity)
        = Except.ok ("Even".toList) := by
  obtain ⟨ew, ds, fb, sq, heq⟩ := analyzeNumber_ok 255 (by decide) (by decide)
  rw [heq]
  show ¬ Except.ok (if (255 : Int) % 2 ≠ 0 then "Odd".toList
      else "Even".toList) = Except.ok ("Even".toList)
  decide

/-- C8 (amended: 255 is odd, so the parity field is `"Odd"`): the record
for 255 has hexadecimal "FF", binary "11111111", octal "377", parity Odd,
prime factors [3, 5, 17], color hex zero-padded to "0000FF" (the field
itself is "#0000FF"), and RGB (0, 0, 255). -/
theorem e2e_255_claim :
    (analyzeNumber 255).map (fun r => r.hexadecimal)
        = Except.ok ("FF".toList) ∧
    (analyzeNumber 255).map (fun r => r.binary)
        = Except.ok ("11111111".toList) ∧
    (analyzeNumber 255).map (fun r => r.octal)
        = Except.ok ("377".toList) ∧
    (analyzeNumber 255).map (fun r => r.parity)
        = Except.ok ("Odd".toList) ∧
    (analyzeNumber 255).map (fun r => r.factors)
        = Except.ok [3, 5, 17] ∧
    zfill 6 (hexField 255) = "0000FF".toList ∧
    (analyzeNumber 255).map (fun r => r.color_hex)
        = Except.ok ("#0000FF".toList) ∧
    (analyzeNumber 255).map (fun r => r.rgb)
        = Except.ok (0, 0, 255) := by
  obtain ⟨ew, ds, fb, sq, heq⟩ := analyzeNumber_ok 255 (by decide) (by decide)
  refine ⟨?_, ?_, ?_, ?_, ?_, by decide, ?_, ?_⟩ <;> rw [heq]
  · show Except.ok (hexField 255) = _
    decide
  · show Except.ok (binField 255) = _
    decide
  · show Except.ok (octField 255) = _
    decide
  · show Except.ok (if (255 : Int) % 2 ≠ 0 then "Odd".toList
        else "Even".toList) = _
    decide
  · show Except.ok (factorize 255) = _
    rw [factorize_255]
  · show Except.ok ('#' :: zfill 6 (hexField 255)) = _
    decide
  · show Except.ok (hexToRgb (hexField 255)) = _
    decide

end TruthPy

namespace TruePy

/-! ### C10: the encoder/decoder round-trip -/

theorem pyUpper_id {c : Char} (h2 : c ≤ 'Z') : pyUpper c = c := by
  rw [pyUpper, if_neg]
  rintro ⟨h3, -⟩
  exact absurd (le_trans h3 h2) (by decide)

theorem map_pyUpper_id :
    ∀ w : List Char, (∀ c ∈ w, c ≤ 'Z') → w.map pyUpper = w := by
  intro w
  induction w with
  | nil => intro _; rfl
  | cons c t iht =>
    intro h
    rw [List.map_cons, pyUpper_id (h c (List.mem_cons_self _ _)),
      iht (fun x hx => h x (List.mem_cons_of_mem _ hx))]

theorem azBounds {c : Char} (h1 : 'A' ≤ c) (h2 : c ≤ 'Z') :
    65 ≤ c.toNat ∧ c.toNat ≤ 90 := by
  rw [Char.le_def, UInt32.le_def, BitVec.le_def] at h1 h2
  exact ⟨h1, h2⟩

theorem notSpace_of_AZ {c : Char} (h1 : 'A' ≤ c) (h2 : c ≤ 'Z') :
    isSpaceChar c = false := by
  have hb := azBounds h1 h2
  rw [isSpaceChar]
  simp only [decide_eq_false_iff_not]
  rintro (rfl | rfl | rfl | rfl | rfl | rfl) <;> revert hb <;> decide

theorem isAlpha_of_AZ {c : Char} (h1 : 'A' ≤ c) (h2 : c ≤ 'Z') :
    isAlphaChar c = true := by
  rw [isAlphaChar]
  simp [h1, h2]

theorem pyStrip_id {l : List Char} (h : ∀ c ∈ l, isSpaceChar c = false) :
    pyStrip l = l := by
  have hdrop : ∀ t : List Char, (∀ c ∈ t, isSpaceChar c = false) →
      t.dropWhile isSpaceChar = t := by
    intro t ht
    cases t with
    | nil => rfl
    | cons c r =>
      rw [List.dropWhile_cons, if_neg]
      rw [ht c (List.mem_cons_self _ _)]
      simp
  rw [pyStrip, hdrop l h, hdrop l.reverse
    (fun c hc => h c (List.mem_reverse.mp hc)), List.reverse_reverse]

theorem splitDot_nodot :
    ∀ l : List Char, (∀ c ∈ l, ¬ c = '.') → splitDot l = [l] := by
  intro l
  induction l with
  | nil => intro _; rfl
  | cons c t ih =>
    intro h
    rw [splitDot, if_neg (h c (List.mem_cons_self _ _)),
      ih (fun x hx => h x (List.mem_cons_of_mem _ hx))]

theorem splitDot_append_dot :
    ∀ (l rest : List Char), (∀ c ∈ l, ¬ c = '.') →
      splitDot (l ++ '.' :: rest) = l :: splitDot rest := by
  intro l
  induction l with
  | nil =>
    intro rest _
    rw [List.nil_append, splitDot, if_pos rfl]
  | cons c t ih =>
    intro rest h
    rw [List.cons_append, splitDot,
      if_neg (h c (List.mem_cons_self _ _)),
      ih rest (fun x hx => h x (List.mem_cons_of_mem _ hx))]

theorem digits_no_dot {k : Nat} :
    ∀ c ∈ TruthPy.natToChars 10 k, ¬ c = '.' := by
  intro c hc
  obtain ⟨d, hd, rfl⟩ :=
    TruthPy.mem_natToChars (b := 10) (by norm_num) (by norm_num) c hc
  interval_cases d <;> decide

theorem decodeItem_digits {k : Nat} (h1 : 1 ≤ k) (h2 : k ≤ 26) :
    decodeItem (TruthPy.natToChars 10 k) = [Char.ofNat (k + 'A'.toNat - 1)] := by
  rw [decodeItem,
    TruthPy.parseChars_natToChars (b := 10) (by norm_num) (by norm_num)]
  show (if 1 ≤ k ∧ k ≤ 26 then [Char.ofNat (k + 'A'.toNat - 1)] else [])
      = [Char.ofNat (k + 'A'.toNat - 1)]
  rw [if_pos ⟨h1, h2⟩]

/-- The decoder inverts the per-letter encoding of the letters of an
uppercase word. -/
theorem decoder_joinDot :
    ∀ w : List Char, (∀ c ∈ w, 'A' ≤ c ∧ c ≤ 'Z') →
      decoderSequence (joinDot (w.map
        (fun c => TruthPy.natToChars 10 (c.toNat - 'A'.toNat + 1)))) = w := by
  intro w
  induction w with
  | nil => intro _; rfl
  | cons c rest ih =>
    intro h
    obtain ⟨h1, h2⟩ := h c (List.mem_cons_self _ _)
    have hbounds : 65 ≤ c.toNat ∧ c.toNat ≤ 90 := by
      rw [Char.le_def, UInt32.le_def, BitVec.le_def] at h1 h2
      exact ⟨h1, h2⟩
    have hk1 : 1 ≤ c.toNat - 'A'.toNat + 1 := by omega
    have hk2 : c.toNat - 'A'.toNat + 1 ≤ 26 := by
      show c.toNat - 65 + 1 ≤ 26
      omega
    have hchar : Char.ofNat ((c.toNat - 'A'.toNat + 1) + 'A'.toNat - 1) = c := by
      have he : (c.toNat - 'A'.toNat + 1) + 'A'.toNat - 1 = c.toNat := by
        show c.toNat - 65 + 1 + 65 - 1 = c.toNat
        omega
      rw [he, Char.ofNat_toNat]
    cases rest with
    | nil =>
      rw [List.map_cons, List.map_nil, joinDot, decoderSequence,
        splitDot_nodot _ digits_no_dot, List.map_cons, List.map_nil,
        decodeItem_digits hk1 hk2, hchar]
      rfl
    | cons r t =>
      have hrest := ih (fun x hx => h x (List.mem_cons_of_mem _ hx))
      rw [List.map_cons, decoderSequence] at hrest
      rw [List.map_cons, List.map_cons, joinDot, decoderSequence,
        splitDot_append_dot _ _ digits_no_dot, List.map_cons,
        decodeItem_digits hk1 hk2, hchar, List.flatten_cons, hrest]
      rfl

/-- C10: decoding inverts encoding on words of uppercase ASCII letters;
the encoder renders 1-based alphabet indices joined by dots, and the
decoder drops any dot-separated piece outside `[1, 26]`. -/
theorem codec_claim :
    (∀ w : List Char, (∀ c ∈ w, 'A' ≤ c ∧ c ≤ 'Z') →
      decoderSequence (encoderMot w) = w) ∧
    encoderMot ("AZ".toList) = "1.26".toList ∧
    decoderSequence ("1.27.2".toList) = "AB".toList := by
  refine ⟨?_, by decide, by decide⟩
  intro w hw
  have hmap : w.map pyUpper = w := map_pyUpper_id w (fun c hc => (hw c hc).2)
  have hstrip : pyStrip (w.map pyUpper) = w := by
    rw [hmap]
    exact pyStrip_id (fun c hc => notSpace_of_AZ (hw c hc).1 (hw c hc).2)
  have hfilter : w.filter isAlphaChar = w :=
    List.filter_eq_self.mpr (fun c hc => isAlpha_of_AZ (hw c hc).1 (hw c hc).2)
  rw [encoderMot, hstrip, hfilter]
  exact decoder_joinDot w hw

/-- C10 witness. -/
theorem codec_claim_w :
    decoderSequence (encoderMot ("HELLO".toList)) = "HELLO".toList :=
  codec_claim.1 ("HELLO".toList) (by decide)

end TruePy
